import Mathlib

/-!
Verification development for the `jsonmask` Go package (github.com/axkit/jsonmask).

The package derives a flat list of masking rules from a Go struct type
(`ParseStruct`) and applies them to a serialized JSON document (`Mask`),
delegating raw reads/writes to the gjson/sjson collaborator libraries.

The embedding below translates the package's own code (jsonmask.go,
maskers.go) into Lean functions.  The gjson/sjson document primitives are
external collaborators that are out of scope for the repository; they are
modelled from the specification's collaborator interface
(get / setRaw / delete / arrayLength over a tree-shaped document).
-/

namespace Jsonmask

/-- Tree model of a serialized JSON document.  A `leaf` stores the exact raw
text of a scalar value (including quotes for strings), mirroring the fact
that the Go code never parses scalar values, only moves their raw bytes. -/
inductive Doc where
  | leaf (raw : String)
  | arr (elems : List Doc)
  | obj (fields : List (String × Doc))

/-- Splits a character list into dot-separated segments
(the address grammar of the spec: `segment ("." segment)*`). -/
def splitSegs : List Char → List (List Char)
  | [] => [[]]
  | c :: rest =>
    if c = '.' then [] :: splitSegs rest
    else
      match splitSegs rest with
      | s :: ss => (c :: s) :: ss
      | [] => [[c]]

/-- Dot-separated segments of a path string. -/
def segsOf (s : String) : List String :=
  (splitSegs s.data).map (fun cs => String.mk cs)

/-- Decimal value of a digit character. -/
def digVal? (c : Char) : Option Nat :=
  if c = '0' then some 0 else if c = '1' then some 1 else if c = '2' then some 2
  else if c = '3' then some 3 else if c = '4' then some 4 else if c = '5' then some 5
  else if c = '6' then some 6 else if c = '7' then some 7 else if c = '8' then some 8
  else if c = '9' then some 9 else none

/-- Accumulating decimal parser for the digits of an index segment. -/
def decGo (acc : Nat) : List Char → Option Nat
  | [] => some acc
  | c :: rest =>
    match digVal? c with
    | some d => decGo (acc * 10 + d) rest
    | none => none

/-- Parses a non-empty all-digit path segment as an array index (the
numeric-segment convention of the document collaborator). -/
def decToNat? (s : String) : Option Nat :=
  match s.data with
  | [] => none
  | c :: rest =>
    match digVal? c with
    | some d => decGo d rest
    | none => none

/-- Looks up a key in an object's field list (first match). -/
def assocGet (k : String) : List (String × Doc) → Option Doc
  | [] => none
  | (k', v) :: rest => if k' = k then some v else assocGet k rest

/-- Modelled from the spec: the collaborator's
`get(document, concreteAddress) -> rawValue | notFound` primitive (gjson).
Object segments are matched literally; numeric segments index arrays. -/
def segGet : Doc → List String → Option Doc
  | d, [] => some d
  | Doc.obj fs, s :: rest =>
    match assocGet s fs with
    | some v => segGet v rest
    | none => none
  | Doc.arr xs, s :: rest =>
    match decToNat? s with
    | some i =>
      match xs.get? i with
      | some v => segGet v rest
      | none => none
    | none => none
  | Doc.leaf _, _ :: _ => none

/-- Modelled from the spec: the collaborator's
`arrayLength(document, concreteArrayAddress) -> integer | notFound`
primitive.  The engine always queries it with an address that ends in the
wildcard segment (gjson's `prefix.#` count query); it returns the length
when the prefix resolves to an array and notFound otherwise. -/
def arrLen (d : Doc) (arrPath : String) : Option Nat :=
  let segs := segsOf arrPath
  if segs.getLast? = some "#" then
    match segGet d segs.dropLast with
    | some (Doc.arr xs) => some xs.length
    | _ => none
  else none

/-- Builds a fresh document holding `raw` at the end of a path of object
keys; used when `setRaw` targets a key missing from the document (sjson
creates paths that do not exist). -/
def buildDoc : List String → String → Doc
  | [], raw => Doc.leaf raw
  | s :: rest, raw => Doc.obj [(s, buildDoc rest raw)]

/-- Updates the first entry with key `s` using `upd`, or appends
`(s, fresh)` when no entry has that key. -/
def objUpd : List (String × Doc) → String → (Doc → Doc) → Doc → List (String × Doc)
  | [], s, _, fresh => [(s, fresh)]
  | (k, v) :: tl, s, upd, fresh =>
    if k = s then (k, upd v) :: tl else (k, v) :: objUpd tl s upd fresh

/-- Modelled from the spec: the collaborator's
`setRaw(document, concreteAddress, rawValue) -> document'` primitive
(sjson `SetRawBytes`).  Missing object keys are created, matching sjson's
documented behavior that paths which do not exist are created. -/
def segSet : Doc → List String → String → Doc
  | _, [], raw => Doc.leaf raw
  | Doc.obj fs, s :: rest, raw =>
    Doc.obj (objUpd fs s (fun v => segSet v rest raw) (buildDoc rest raw))
  | Doc.arr xs, s :: rest, raw =>
    match decToNat? s with
    | some i =>
      match xs.get? i with
      | some v => Doc.arr (xs.set i (segSet v rest raw))
      | none => Doc.arr xs
    | none => Doc.arr xs
  | Doc.leaf _, s :: rest, raw => Doc.obj [(s, buildDoc rest raw)]

/-- Removes the first entry with key `s` when `last` is true, otherwise
updates it with `upd`; an absent key leaves the list unchanged. -/
def objDel : List (String × Doc) → String → Bool → (Doc → Doc) → List (String × Doc)
  | [], _, _, _ => []
  | (k, v) :: tl, s, last, upd =>
    if k = s then (if last then tl else (k, upd v) :: tl)
    else (k, v) :: objDel tl s last upd

/-- Modelled from the spec: the collaborator's
`delete(document, concreteAddress) -> document'` primitive (sjson
`DeleteBytes`).  Deleting an address that does not exist leaves the
document unchanged. -/
def segDel : Doc → List String → Doc
  | d, [] => d
  | Doc.obj fs, s :: rest =>
    Doc.obj (objDel fs s rest.isEmpty (fun v => segDel v rest))
  | Doc.arr xs, s :: rest =>
    match decToNat? s with
    | some i =>
      match rest with
      | [] => Doc.arr (xs.eraseIdx i)
      | _ =>
        match xs.get? i with
        | some v => Doc.arr (xs.set i (segDel v rest))
        | none => Doc.arr xs
    | none => Doc.arr xs
  | Doc.leaf l, _ :: _ => Doc.leaf l

/-- Joins raw fragments with commas. -/
def joinComma : List String → String
  | [] => ""
  | [s] => s
  | s :: rest => s ++ "," ++ joinComma rest

mutual
/-- Raw serialization of a document subtree; models gjson's `Result.Raw`
for composite values (a leaf's raw text is emitted verbatim). -/
def serialize : Doc → String
  | Doc.leaf raw => raw
  | Doc.arr xs => "[" ++ joinComma (serializeElems xs) ++ "]"
  | Doc.obj fs => "\x7b" ++ joinComma (serializeFields fs) ++ "\x7d"

/-- Serializations of array elements. -/
def serializeElems : List Doc → List String
  | [] => []
  | d :: rest => serialize d :: serializeElems rest

/-- Serializations of object fields. -/
def serializeFields : List (String × Doc) → List String
  | [] => []
  | (k, d) :: rest => ("\"" ++ k ++ "\":" ++ serialize d) :: serializeFields rest
end

/-- Raw text of a gjson lookup result: an absent value has `Raw == ""`
(the zero `gjson.Result`), a present value yields its raw serialization. -/
def rawOf : Option Doc → String
  | none => ""
  | some d => serialize d

/-!
Embeddings of the masking functions of maskers.go.  The Go functions work
on the raw bytes of a single JSON value (quotes included); the embedding
works on the corresponding character list.  Go's `bytes.ToUpper/ToLower`
are modelled with `Char.toUpper/toLower`, which agree on the ASCII data
the package manipulates.
-/

/-- Upper returns the input string in uppercase (maskers.go `Upper`). -/
def Upper (s : String) : String :=
  String.mk (s.data.map Char.toUpper)

/-- Lower returns the input string in lowercase (maskers.go `Lower`). -/
def Lower (s : String) : String :=
  String.mk (s.data.map Char.toLower)

/-- InitialChar returns the opening quote and first character, uppercased,
followed by a closing quote (maskers.go `InitialChar`). -/
def InitialChar (s : String) : String :=
  if s.data.length > 2 then String.mk ((s.data.take 2 ++ ['\"']).map Char.toUpper)
  else s

/-- PrefixFn returns a function keeping the quoted first `length`
characters, optionally appending an ellipsis (maskers.go `PrefixFn`). -/
def PrefixFn (length : Nat) (addEllipsis : Bool) : String → String :=
  fun s =>
    if s.data.length ≤ length + 2 then s
    else
      let res := String.mk (s.data.take (length + 1))
      if addEllipsis then res ++ "...\"" else res ++ "\""

/-- Truncate masks the input string to an empty string unless it is NULL
(maskers.go `Truncate`). -/
def Truncate (s : String) : String :=
  if s.data.length > 2 ∧ String.mk (s.data.map Char.toUpper) ≠ "NULL" then "\"\"" else s

/-- Null masks the input value to a literal `null` (maskers.go `Null`). -/
def Null (_ : String) : String :=
  "null"

/-- Zero masks the input value to a literal `0` (maskers.go `Zero`). -/
def Zero (_ : String) : String :=
  "0"

/-- Forward scan worker: examines indices `i, i+1, ...` while `i < stop`,
consuming one unit of the step budget per index. -/
def findFromGo (cs : List Char) (c : Char) (stop : Nat) : Nat → Nat → Option Nat
  | _, 0 => none
  | i, steps + 1 =>
    if i < stop then
      (if cs.getD i ' ' = c then some i else findFromGo cs c stop (i + 1) steps)
    else none

/-- First index `i` with `start ≤ i < stop` such that the character at `i`
is `c` (the forward scan of maskers.go `Email` looking for the `@`); the
step budget `stop - start` covers every index the Go loop visits. -/
def findFrom (cs : List Char) (c : Char) (start stop : Nat) : Option Nat :=
  findFromGo cs c stop start (stop - start)

/-- Largest-to-smallest scan: first index `i` with `lo < i ≤ start` such
that the character at `i` is `c` (the backward scan of maskers.go `Email`
looking for the last dot of the domain). -/
def scanDown (cs : List Char) (c : Char) (lo : Nat) : Nat → Option Nat
  | 0 => none
  | i + 1 =>
    if lo < i + 1 then
      (if cs.getD (i + 1) ' ' = c then some (i + 1) else scanDown cs c lo i)
    else none

/-- Replaces the characters at positions `lo ≤ pos < hi` by `'*'`,
starting from index `pos` (models the in-place masking loops of
maskers.go `Email`). -/
def starFrom (cs : List Char) (pos lo hi : Nat) : List Char :=
  match cs with
  | [] => []
  | c :: rest => (if lo ≤ pos ∧ pos < hi then '*' else c) :: starFrom rest (pos + 1) lo hi

/-- Replaces the characters at positions `lo ≤ i < hi` by `'*'`. -/
def starRange (cs : List Char) (lo hi : Nat) : List Char :=
  starFrom cs 0 lo hi

/-- Email masks a quoted email address, starring the local part except its
first and last characters and the domain up to its last dot
(maskers.go `Email`). -/
def Email (email : String) : String :=
  let invalid := "\"invalid_email_format\""
  let cs := email.data
  let n := cs.length
  if n < 2 ∨ cs.head? ≠ some '"' ∨ cs.getLast? ≠ some '"' then invalid
  else
    match findFrom cs '@' 1 (n - 1) with
    | none => invalid
    | some atIndex =>
      if atIndex ≤ 1 ∨ atIndex = n - 1 then invalid
      else
        let cs1 :=
          if atIndex - 1 ≤ 2 then starRange cs 2 atIndex
          else starRange cs 2 (atIndex - 1)
        match scanDown cs1 '.' atIndex (n - 2) with
        | none => invalid
        | some lastDotIndex => String.mk (starRange cs1 (atIndex + 2) lastDotIndex)

/-!
Core data types of jsonmask.go: `Rule`, `StructMaskRules` and the masker
instance with its name-keyed registry of masking functions.  Go's
`map[string]func(string)[]byte` is modelled as an association list where
registration prepends and lookup takes the first match, so that a later
`AddFunc` with the same name overrides an earlier one exactly as a map
assignment does.
-/

/-- Rule holds metadata for a single field of a structure
(jsonmask.go `Rule`); `sliceLevel` is the unexported wildcard-depth field
(0 - no slice, 1 - slice, 2 - slice of slices, ...). -/
structure Rule where
  Path : String
  Action : String
  sliceLevel : Nat
deriving Repr, DecidableEq

/-- StructMaskRules holds metadata for a structure
(jsonmask.go `StructMaskRules`). -/
structure StructMaskRules where
  Rules : List Rule

/-- JsonMaskerImpl provides masking based on field metadata and custom
masking functions (jsonmask.go `JsonMaskerImpl`). -/
structure JsonMaskerImpl where
  tag : String
  funcs : List (String × (String → String))

/-- DefaultStructFieldTag is the default tag name for struct fields. -/
def DefaultStructFieldTag : String := "mask"

/-- AddFunc adds a masking function associated with a name
(jsonmask.go `AddFunc`). -/
def AddFunc (jm : JsonMaskerImpl) (name : String) (f : String → String) : JsonMaskerImpl :=
  { jm with funcs := (name, f) :: jm.funcs }

/-- Registry lookup: `jm.funcs[action]` with its `exists` flag. -/
def fnLookup (name : String) : List (String × (String → String)) → Option (String → String)
  | [] => none
  | (k, f) :: rest => if k = name then some f else fnLookup name rest

/-- NewWithMaskTag creates a new masker instance with a custom tag name
(jsonmask.go `NewWithMaskTag`).  Note that the source assigns
`DefaultStructFieldTag` to the `tag` field, so the `tag` argument is
never used. -/
def NewWithMaskTag (tag : String) : JsonMaskerImpl :=
  let jm : JsonMaskerImpl := { tag := DefaultStructFieldTag, funcs := [] }
  let jm := AddFunc jm "upper" Upper
  let jm := AddFunc jm "lower" Lower
  let jm := AddFunc jm "initialChar" InitialChar
  let jm := AddFunc jm "truncate" Truncate
  let jm := AddFunc jm "null" Null
  let jm := AddFunc jm "email" Email
  let jm := AddFunc jm "first4" (PrefixFn 4 false)
  let jm := AddFunc jm "zero" Zero
  jm

/-- New creates a new masker instance (jsonmask.go `New`). -/
def New : JsonMaskerImpl := NewWithMaskTag DefaultStructFieldTag

/-!
The Record Introspector (`ParseStruct` and its helpers).  Go reflection is
modelled by a type-level description of a struct: the rules emitted by
`extractStructRules` depend only on field names, tags and type shapes
(pointer indirections are unwrapped to zero values of the pointed-to type,
and empty slices are probed through a zero value of the element type, so
runtime values never influence the output).  `Shape.basic` stands for all
scalar kinds (string, the int kinds, bool, float, ...) and `Shape.mapT`
for the map kind; `Shape.arrT` is a fixed-size Go array, `Shape.slice` a
Go slice.
-/

mutual
/-- Type-level shape of a Go value, as seen by `reflect.Kind`. -/
inductive Shape where
  | basic
  | mapT
  | ptr (elem : Shape)
  | slice (elem : Shape)
  | arrT (elem : Shape)
  | struct (fields : List Fld)

/-- A struct field: its Go name, exported flag, struct tags and shape. -/
inductive Fld where
  | mk (name : String) (exported : Bool) (tags : List (String × String)) (shape : Shape)
end

/-- Go field name of a field description. -/
def Fld.name : Fld → String
  | Fld.mk n _ _ _ => n

/-- Exported flag of a field description. -/
def Fld.exported : Fld → Bool
  | Fld.mk _ e _ _ => e

/-- Struct tags of a field description. -/
def Fld.tags : Fld → List (String × String)
  | Fld.mk _ _ t _ => t

/-- Shape of a field description. -/
def Fld.shape : Fld → Shape
  | Fld.mk _ _ _ s => s

/-- Models `reflect.StructTag.Get`: the value of the tag with the given
key, or the empty string when the key is absent. -/
def tagLookup (k : String) : List (String × String) → String
  | [] => ""
  | (k', v) :: rest => if k' = k then v else tagLookup k rest

/-- First index of a character in a list (models `strings.IndexByte`). -/
def idxChar (cs : List Char) (c : Char) : Option Nat :=
  match cs with
  | [] => none
  | c' :: rest => if c' = c then some 0 else (idxChar rest c).map (fun i => i + 1)

/-- Resolves a field's wire name and rule tag
(jsonmask.go `parseFieldTag`): the json tag up to its first comma, or the
Go field name when the json tag is empty or starts with a comma; paired
with the value of the masker's rule tag. -/
def parseFieldTag (jm : JsonMaskerImpl) (f : Fld) : String × String :=
  let jsonAttr := tagLookup "json" f.tags
  let name :=
    if jsonAttr = "" ∨ jsonAttr.data.head? = some ',' then f.name
    else
      match idxChar jsonAttr.data ',' with
      | some i => String.mk (jsonAttr.data.take i)
      | none => jsonAttr
  (name, tagLookup jm.tag f.tags)

/-- joinPath joins parent and child attribute names using the JSON path
separator (jsonmask.go `joinPath`). -/
def joinPath (parent child : String) : String :=
  if parent = "" then child else parent ++ "." ++ child

/-- Unwraps pointer indirection (the
`for val.Kind() == reflect.Ptr` loops of the source; a nil pointer is
replaced by a zero value of the same pointed-to type, so only the shape
matters). -/
def stripPtr : Shape → Shape
  | Shape.ptr e => stripPtr e
  | s => s

/-- Whether a shape is a slice or a fixed-size array
(`kind == reflect.Slice || kind == reflect.Array`). -/
def isSliceKind : Shape → Bool
  | Shape.slice _ => true
  | Shape.arrT _ => true
  | _ => false

/-- Element shape of a slice/array (`val.Index(0)` or a zero value of the
element type for an empty collection — either way the element shape). -/
def elemOf : Shape → Shape
  | Shape.slice e => e
  | Shape.arrT e => e
  | s => s

/-- Whether a shape is of a basic (scalar) kind: the source's test
`!(ptr || slice || array || struct || map)`. -/
def isBasicKind : Shape → Bool
  | Shape.basic => true
  | _ => false

/-- The `for val.Kind() == reflect.Slice` loop of
`extractStructFieldRules`: strips nested slice layers, appending a
wildcard segment to the attribute name for each layer. -/
def stripSlices : Shape → String → Shape × String
  | Shape.slice e, attr => stripSlices e (attr ++ ".#")
  | s, attr => (s, attr)

/-- Shape size bound for the pointer-unwrapping loop. -/
theorem sizeOf_stripPtr_le (s : Shape) : sizeOf (stripPtr s) ≤ sizeOf s := by
  cases s with
  | ptr e =>
    have ih := sizeOf_stripPtr_le e
    simp [stripPtr]
    omega
  | basic => simp [stripPtr]
  | mapT => simp [stripPtr]
  | slice e => simp [stripPtr]
  | arrT e => simp [stripPtr]
  | struct fs => simp [stripPtr]
termination_by sizeOf s
decreasing_by simp

/-- Shape size bound for the element probe. -/
theorem sizeOf_elemOf_le (s : Shape) : sizeOf (elemOf s) ≤ sizeOf s := by
  cases s <;> simp [elemOf]

/-- Shape size bound for the nested-slice stripping loop. -/
theorem sizeOf_stripSlices_le (s : Shape) (attr : String) :
    sizeOf (stripSlices s attr).1 ≤ sizeOf s := by
  cases s with
  | slice e =>
    have ih := sizeOf_stripSlices_le e (attr ++ ".#")
    simp [stripSlices]
    omega
  | basic => simp [stripSlices]
  | mapT => simp [stripSlices]
  | ptr e => simp [stripSlices]
  | arrT e => simp [stripSlices]
  | struct fs => simp [stripSlices]
termination_by sizeOf s
decreasing_by simp

/-- A field's shape is structurally smaller than the field. -/
theorem sizeOf_shape_lt (f : Fld) : sizeOf f.shape < sizeOf f := by
  cases f
  simp [Fld.shape]

mutual
/-- Walks a struct shape and collects rules from its exported fields
(jsonmask.go `extractStructRules`): pointers are dereferenced, and a
non-struct shape yields no rules. -/
def extractStructRules (jm : JsonMaskerImpl) : Shape → String → List Rule
  | Shape.ptr e, parentAttr => extractStructRules jm e parentAttr
  | Shape.struct fs, parentAttr => extractFieldsRules jm fs parentAttr
  | _, _ => []
termination_by s _ => (sizeOf s, 0)
decreasing_by
  all_goals (simp_wf; exact Prod.Lex.left _ _ (by omega))

/-- The field loop of `extractStructRules`: unexported fields are skipped,
and each exported field contributes its rules in declaration order. -/
def extractFieldsRules (jm : JsonMaskerImpl) : List Fld → String → List Rule
  | [], _ => []
  | f :: rest, parentAttr =>
    (if f.exported then extractStructFieldRules jm f parentAttr else [])
      ++ extractFieldsRules jm rest parentAttr
termination_by fs _ => (sizeOf fs, 0)
decreasing_by
  all_goals (simp_wf; exact Prod.Lex.left _ _ (by omega))

/-- Rules of a single struct field (jsonmask.go `extractStructFieldRules`):
pointers are unwrapped, a slice/array is probed through its element, a
deletion tag returns one terminal rule before any shape dispatch, a basic
shape emits at most one rule, and composite shapes recurse via the
`switch val.Kind()` dispatch. -/
def extractStructFieldRules (jm : JsonMaskerImpl) (f : Fld) (parentAttr : String) : List Rule :=
  let pft := parseFieldTag jm f
  let jsonMaskTag := pft.2
  let s1 := stripPtr f.shape
  let isSlice := isSliceKind s1
  let s2 := if isSlice then elemOf s1 else s1
  if jsonMaskTag = "-" then
    [{ Path := joinPath parentAttr pft.1, Action := jsonMaskTag, sliceLevel := 0 }]
  else if isBasicKind s2 then
    (if jsonMaskTag = "" then []
     else [{ Path := joinPath parentAttr pft.1, Action := jsonMaskTag, sliceLevel := 0 }])
  else
    let attr2 := if isSlice then joinPath parentAttr (pft.1 ++ ".#") else pft.1
    extractShapeDispatch jm f s2 attr2 parentAttr
termination_by (sizeOf f, 0)
decreasing_by
  apply Prod.Lex.left
  simp_wf
  have h1 := sizeOf_stripPtr_le f.shape
  have h2 := sizeOf_elemOf_le (stripPtr f.shape)
  have h3 := sizeOf_shape_lt f
  split <;> omega

/-- The `switch val.Kind()` statement of the source's
`extractStructFieldRules`, dispatching on the probed element shape: a
struct recurses into its fields, a slice strips its nested slice layers
first, and any other composite kind emits a single rule carrying the
field's rule tag. -/
def extractShapeDispatch (jm : JsonMaskerImpl) (f : Fld) (s2 : Shape)
    (attr2 parentAttr : String) : List Rule :=
  match s2 with
  | Shape.struct fs => extractStructRules jm (Shape.struct fs) attr2
  | Shape.slice e =>
    let p := stripSlices (Shape.slice e) attr2
    extractStructRules jm p.1 p.2
  | _ => [{ Path := joinPath parentAttr attr2, Action := tagLookup jm.tag f.tags, sliceLevel := 0 }]
termination_by (sizeOf s2, 1)
decreasing_by
  · exact Prod.Lex.right _ (by omega)
  · have h := sizeOf_stripSlices_le (Shape.slice e) attr2
    rcases Nat.lt_or_ge (sizeOf (stripSlices (Shape.slice e) attr2).1)
        (sizeOf (Shape.slice e)) with hl | hg
    · exact Prod.Lex.left _ _ hl
    · have heq : sizeOf (stripSlices (Shape.slice e) attr2).1 = sizeOf (Shape.slice e) :=
        Nat.le_antisymm h hg
      rw [heq]
      exact Prod.Lex.right _ (by omega)
end

/-- Count of non-overlapping `".#"` occurrences
(`strings.Count(path, ".#")`). -/
def countHashSegs : List Char → Nat
  | [] => 0
  | [_] => 0
  | c1 :: c2 :: rest =>
    if c1 = '.' ∧ c2 = '#' then countHashSegs rest + 1
    else countHashSegs (c2 :: rest)

/-- ParseStruct extracts field metadata from a struct shape
(jsonmask.go `ParseStruct`): the extracted rules with each rule's
`sliceLevel` set to the count of `".#"` occurrences in its path. -/
def ParseStruct (jm : JsonMaskerImpl) (src : Shape) : StructMaskRules :=
  let rules := extractStructRules jm src ""
  { Rules := rules.map (fun r => { r with sliceLevel := countHashSegs r.Path.data }) }

/-!
The Rule Application Engine (jsonmask.go `Mask`, `mask`, `maskSimplePath`,
`rangeOverArray`).  Paths are manipulated exactly as the source does:
`strings.Index(path, ".#")` splits an address at its first wildcard
segment and `strings.ReplaceAll(arrPath, "#", strconv.Itoa(i))`
substitutes a concrete index.  The collaborator write primitives of the
model are total, so the only error values are the two the source
constructs itself.
-/

/-- First index of the `".#"` substring (`strings.Index(path, ".#")`). -/
def idxHashSeg : List Char → Option Nat
  | [] => none
  | [_] => none
  | c1 :: c2 :: rest =>
    if c1 = '.' ∧ c2 = '#' then some 0
    else (idxHashSeg (c2 :: rest)).map (fun i => i + 1)

/-- Splits a path at its first wildcard segment into the prefix including
`".#"` and the remaining suffix (`rule.Path[:idx+2]` and
`rule.Path[idx+2:]`), or `none` when no wildcard segment is present. -/
def splitAtHash (s : String) : Option (String × String) :=
  match idxHashSeg s.data with
  | none => none
  | some i => some (String.mk (s.data.take (i + 2)), String.mk (s.data.drop (i + 2)))

/-- A found `".#"` index leaves room for the two pattern characters. -/
theorem idxHashSeg_le :
    ∀ (cs : List Char) (i : Nat), idxHashSeg cs = some i → i + 2 ≤ cs.length
  | [], i => by simp [idxHashSeg]
  | [c], i => by simp [idxHashSeg]
  | c1 :: c2 :: rest, i => by
    by_cases h : c1 = '.' ∧ c2 = '#'
    · simp [idxHashSeg, h]
      intro hi
      subst hi
      simp
    · simp [idxHashSeg, h]
      intro j hj hji
      have := idxHashSeg_le (c2 :: rest) j hj
      simp at this
      omega

/-- A positive `".#"` count guarantees that the split succeeds. -/
theorem countHashSegs_pos_idx :
    ∀ cs : List Char, 0 < countHashSegs cs → ∃ i, idxHashSeg cs = some i
  | [] => by simp [countHashSegs]
  | [c] => by simp [countHashSegs]
  | c1 :: c2 :: rest => by
    by_cases h : c1 = '.' ∧ c2 = '#'
    · intro _
      exact ⟨0, by simp [idxHashSeg, h]⟩
    · intro hc
      simp only [countHashSegs, if_neg h] at hc
      obtain ⟨i, hi⟩ := countHashSegs_pos_idx (c2 :: rest) hc
      exact ⟨i + 1, by simp [idxHashSeg, h, hi]⟩

/-- The suffix of a successful split is strictly shorter than the path. -/
theorem splitAtHash_lt (s a b : String) (h : splitAtHash s = some (a, b)) :
    b.data.length < s.data.length := by
  unfold splitAtHash at h
  match hi : idxHashSeg s.data with
  | none => rw [hi] at h; simp at h
  | some i =>
    rw [hi] at h
    simp at h
    have hle := idxHashSeg_le s.data i hi
    have hb : b.data = s.data.drop (i + 2) := by
      rw [← h.2]
    rw [hb, List.length_drop]
    omega

/-- Replaces every `'#'` character by `rep`
(`strings.ReplaceAll(arrPath, "#", strconv.Itoa(i))` — the pattern is a
single character, so the per-character substitution coincides with Go's
non-overlapping replacement). -/
def repHash (cs : List Char) (rep : String) : List Char :=
  match cs with
  | [] => []
  | c :: rest => (if c = '#' then rep.data else [c]) ++ repHash rest rep

/-- jsonmask.go `maskSimplePath`: deletion for the sentinel action, a
silent no-op for an unregistered action, and otherwise get raw value /
mask / set raw value at the literal address.  The collaborator write
primitives of the model are total, so the error component of the source's
return is always nil here. -/
def maskSimplePath (jm : JsonMaskerImpl) (data : Doc) (path action : String) : Doc :=
  if action = "-" then segDel data (segsOf path)
  else
    match fnLookup action jm.funcs with
    | none => data
    | some maskFunc =>
      let value := segGet data (segsOf path)
      segSet data (segsOf path) (maskFunc (rawOf value))

mutual
/-- jsonmask.go `rangeOverArray`: queries the array length at the wildcard
prefix (`gjson.GetBytes(data, arrPath)` with the count query, `arr.Int()`)
and walks the indices `0 .. n-1` in ascending order; a prefix that does
not resolve to an existing array is the fatal "json array not found"
error. -/
def rangeOverArray (jm : JsonMaskerImpl) (data : Doc) (rule : Rule) (arrPath arrItemPath : String) :
    Except String Doc :=
  match arrLen data arrPath with
  | none => Except.error "json array not found"
  | some n => rangeLoop jm rule arrPath arrItemPath (List.range n) data
termination_by (arrItemPath.data.length + 1, 0)
decreasing_by
  exact Prod.Lex.left _ _ (Nat.lt_succ_self _)

/-- The `for i := 0; i < int(arr.Int()); i++` loop of `rangeOverArray`
over the remaining indices: deletion deletes the element path directly, a
suffix without further wildcards is masked through the registry (silently
skipped when unregistered), and a suffix with another wildcard recurses
one array level deeper.  The source computes the sub-array split of
`arrItemPath` once before the loop; it is a pure function of
`arrItemPath`, recomputed here in each iteration with the same result. -/
def rangeLoop (jm : JsonMaskerImpl) (rule : Rule) (arrPath arrItemPath : String) (is : List Nat)
    (data : Doc) : Except String Doc :=
  match is with
  | [] => Except.ok data
  | i :: rest =>
    let path := String.mk (repHash arrPath.data (Nat.repr i))
    if rule.Action = "-" then
      rangeLoop jm rule arrPath arrItemPath rest (segDel data (segsOf (path ++ arrItemPath)))
    else
      match hsp : splitAtHash arrItemPath with
      | none =>
        let value := segGet data (segsOf (path ++ arrItemPath))
        match fnLookup rule.Action jm.funcs with
        | none => rangeLoop jm rule arrPath arrItemPath rest data
        | some maskFunc =>
          rangeLoop jm rule arrPath arrItemPath rest
            (segSet data (segsOf (path ++ arrItemPath)) (maskFunc (rawOf value)))
      | some (subArrPath, subArrItemPath) =>
        match rangeOverArray jm data rule (path ++ subArrPath) subArrItemPath with
        | Except.error e => Except.error e
        | Except.ok data2 => rangeLoop jm rule arrPath arrItemPath rest data2
termination_by (arrItemPath.data.length, is.length)
decreasing_by
  · exact Prod.Lex.right _ (Nat.lt_succ_self _)
  · exact Prod.Lex.right _ (Nat.lt_succ_self _)
  · exact Prod.Lex.right _ (Nat.lt_succ_self _)
  · have hlt := splitAtHash_lt arrItemPath subArrPath subArrItemPath hsp
    rcases Nat.lt_or_ge (subArrItemPath.data.length + 1) arrItemPath.data.length with hl | hg
    · exact Prod.Lex.left _ _ hl
    · have heq : subArrItemPath.data.length + 1 = arrItemPath.data.length := by omega
      rw [← heq]
      exact Prod.Lex.right _ (Nat.succ_pos _)
  · exact Prod.Lex.right _ (Nat.lt_succ_self _)
end

/-- jsonmask.go `mask`: applies the rules in order, each on the document
produced by its predecessors; a rule with zero wildcard depth goes through
the simple literal path, otherwise the path is split at its first
wildcard segment ("invalid json array path" when none is present) and
expanded; the first error aborts the remaining rules. -/
def mask (jm : JsonMaskerImpl) (data : Doc) : List Rule → Except String Doc
  | [] => Except.ok data
  | rule :: rest =>
    if rule.sliceLevel = 0 then
      mask jm (maskSimplePath jm data rule.Path rule.Action) rest
    else
      match splitAtHash rule.Path with
      | none => Except.error "invalid json array path"
      | some (arrPath, arrItemPath) =>
        match rangeOverArray jm data rule arrPath arrItemPath with
        | Except.error e => Except.error e
        | Except.ok data2 => mask jm data2 rest

/-- jsonmask.go `Mask`: applies masking to a document based on the given
rules. -/
def Mask (jm : JsonMaskerImpl) (data : Doc) (smr : StructMaskRules) : Except String Doc :=
  mask jm data smr.Rules

/-- A `Rule` value as constructed by a caller through the exported fields
only (`jsonmask.Rule{Path: ..., Action: ...}`): the unexported
`sliceLevel` field necessarily takes Go's zero value 0. -/
def mkRule (path action : String) : Rule :=
  { Path := path, Action := action, sliceLevel := 0 }

/-- One index step of wildcard expansion: the concrete address is formed
by substituting the index for the wildcard in the array prefix, and the
rule's action is applied at that address (deletion, registered mask,
silent no-op, or recursive expansion of the next wildcard level). -/
def rangeStep (jm : JsonMaskerImpl) (rule : Rule) (arrPath arrItemPath : String) (data : Doc)
    (i : Nat) : Except String Doc :=
  let path := String.mk (repHash arrPath.data (Nat.repr i))
  if rule.Action = "-" then Except.ok (segDel data (segsOf (path ++ arrItemPath)))
  else
    match splitAtHash arrItemPath with
    | none =>
      let value := segGet data (segsOf (path ++ arrItemPath))
      match fnLookup rule.Action jm.funcs with
      | none => Except.ok data
      | some maskFunc =>
        Except.ok (segSet data (segsOf (path ++ arrItemPath)) (maskFunc (rawOf value)))
    | some (subArrPath, subArrItemPath) =>
      rangeOverArray jm data rule (path ++ subArrPath) subArrItemPath

/-!
Lemmas and claim theorems.
-/

/-- Monadic bind on a success value. -/
theorem except_ok_bind {α β ε : Type} (a : α) (f : α → Except ε β) :
    (Except.ok a >>= f) = f a := rfl

/-- Monadic bind on an error value. -/
theorem except_error_bind {α β ε : Type} (e : ε) (f : α → Except ε β) :
    ((Except.error e : Except ε α) >>= f) = Except.error e := rfl

/-- The per-iteration body of `rangeLoop` coincides with `rangeStep`:
the loop is a monadic left fold of the per-index action step. -/
theorem rangeLoop_eq_foldlM (jm : JsonMaskerImpl) (rule : Rule) (arrPath arrItemPath : String) :
    ∀ (is : List Nat) (data : Doc),
      rangeLoop jm rule arrPath arrItemPath is data =
        is.foldlM (rangeStep jm rule arrPath arrItemPath) data := by
  intro is
  induction is with
  | nil => intro d; simp [rangeLoop, List.foldlM]; rfl
  | cons i rest ih =>
    intro d
    rw [rangeLoop]
    by_cases hdel : rule.Action = "-"
    · simp [hdel, List.foldlM, rangeStep, except_ok_bind, ih]
    · simp only [if_neg hdel]
      match hsp : splitAtHash arrItemPath with
      | none =>
        match hfn : fnLookup rule.Action jm.funcs with
        | none => simp [List.foldlM, rangeStep, hdel, hsp, hfn, except_ok_bind, ih]
        | some maskFunc => simp [List.foldlM, rangeStep, hdel, hsp, hfn, except_ok_bind, ih]
      | some (subArrPath, subArrItemPath) =>
        match hro : rangeOverArray jm d rule
            (String.mk (repHash arrPath.data (Nat.repr i)) ++ subArrPath) subArrItemPath with
        | Except.error e => simp [List.foldlM, rangeStep, hdel, hsp, hro, except_error_bind]
        | Except.ok data2 => simp [List.foldlM, rangeStep, hdel, hsp, hro, except_ok_bind, ih]

/-- C1: for a document holding an N-element array at the wildcard prefix
of a rule, wildcard expansion walks exactly the indices `0 .. N-1` of
`List.range N` in ascending order, applying the rule's action at the
concrete address of each index in that order (sequential monadic fold,
each step seeing the document produced by the previous ones). -/
theorem c1_wildcard_expansion_order (jm : JsonMaskerImpl) (data : Doc) (rule : Rule)
    (arrPath arrItemPath : String) (n : Nat) (h : arrLen data arrPath = some n) :
    rangeOverArray jm data rule arrPath arrItemPath =
      (List.range n).foldlM (rangeStep jm rule arrPath arrItemPath) data := by
  rw [rangeOverArray, h]
  exact rangeLoop_eq_foldlM jm rule arrPath arrItemPath (List.range n) data

/-- C1 witness: a concrete two-element array expands to the fold over
indices `[0, 1]`. -/
theorem c1_wildcard_expansion_order_witness :
    arrLen (Doc.obj [("items", Doc.arr [Doc.leaf "1", Doc.leaf "2"])]) "items.#" = some 2 ∧
    rangeOverArray New (Doc.obj [("items", Doc.arr [Doc.leaf "1", Doc.leaf "2"])])
        (Rule.mk "items.#" "zero" 1) "items.#" "" =
      (List.range 2).foldlM (rangeStep New (Rule.mk "items.#" "zero" 1) "items.#" "")
        (Doc.obj [("items", Doc.arr [Doc.leaf "1", Doc.leaf "2"])]) :=
  ⟨by decide,
   c1_wildcard_expansion_order New (Doc.obj [("items", Doc.arr [Doc.leaf "1", Doc.leaf "2"])])
     (Rule.mk "items.#" "zero" 1) "items.#" "" 2 (by decide)⟩

/-- C2: a field whose rule tag is the deletion sentinel produces exactly
one terminal rule, whatever the field's shape, and no rules for any of
its descendants; consequently a single-field struct parses to exactly
that one rule. -/
theorem c2_deletion_terminal :
    (∀ (jm : JsonMaskerImpl) (f : Fld) (parentAttr : String),
      (parseFieldTag jm f).2 = "-" →
      extractStructFieldRules jm f parentAttr =
        [{ Path := joinPath parentAttr (parseFieldTag jm f).1, Action := "-", sliceLevel := 0 }]) ∧
    (∀ (jm : JsonMaskerImpl) (f : Fld),
      f.exported = true →
      (parseFieldTag jm f).2 = "-" →
      (ParseStruct jm (Shape.struct [f])).Rules =
        [{ Path := (parseFieldTag jm f).1, Action := "-",
           sliceLevel := countHashSegs (parseFieldTag jm f).1.data }]) := by
  constructor
  · intro jm f parentAttr h
    rw [extractStructFieldRules]
    simp [h]
  · intro jm f hexp h
    have h1 : extractStructFieldRules jm f "" =
        [{ Path := joinPath "" (parseFieldTag jm f).1, Action := "-", sliceLevel := 0 }] := by
      rw [extractStructFieldRules]
      simp [h]
    simp [ParseStruct, extractStructRules, extractFieldsRules, hexp, h1, joinPath]

/-- C2 witness: a deletion-tagged array-of-arrays-of-structs field yields
the single terminal rule, its tagged descendants notwithstanding. -/
theorem c2_deletion_terminal_witness :
    extractStructFieldRules New
        (Fld.mk "HiddenItems" true [("json", "hiddenItems"), ("mask", "-")]
          (Shape.slice (Shape.slice (Shape.struct
            [Fld.mk "Amount" true [("json", "amount"), ("mask", "upper")] Shape.basic]))))
        "" = [{ Path := "hiddenItems", Action := "-", sliceLevel := 0 }] :=
  c2_deletion_terminal.1 New
    (Fld.mk "HiddenItems" true [("json", "hiddenItems"), ("mask", "-")]
      (Shape.slice (Shape.slice (Shape.struct
        [Fld.mk "Amount" true [("json", "amount"), ("mask", "upper")] Shape.basic]))))
    "" (by decide)

/-- C8: the built-in email masker on the three specified inputs: the two
quoted addresses are starred as specified, and any input not enclosed in
surrounding double quotes yields the quoted invalid-format sentinel. -/
theorem c8_email_scenarios :
    Email "\"user@example.com\"" = "\"u**r@e******.com\"" ∧
    Email "\"ab@domain.com\"" = "\"a*@d*****.com\"" ∧
    (∀ s : String,
      (s.data.length < 2 ∨ s.data.head? ≠ some '"' ∨ s.data.getLast? ≠ some '"') →
      Email s = "\"invalid_email_format\"") := by
  refine ⟨by decide, by decide, ?_⟩
  intro s h
  unfold Email
  rw [if_pos h]

/-- C8 witness: an unquoted input is mapped to the sentinel. -/
theorem c8_email_scenarios_witness :
    Email "missingquotes@example.com" = "\"invalid_email_format\"" :=
  c8_email_scenarios.2.2 "missingquotes@example.com" (by decide)

/-- C9: the tag argument of NewWithMaskTag is ignored: for every tag the
returned masker equals the one returned by New, and its struct-field tag
is the default "mask" tag, so field rule tags are always read from the
default tag. -/
theorem c9_newWithMaskTag_ignores_tag :
    ∀ t : String, NewWithMaskTag t = New ∧ (NewWithMaskTag t).tag = DefaultStructFieldTag :=
  fun _ => ⟨rfl, rfl⟩

/-- C10: rules built by a caller through the exported fields carry
wildcard depth zero, so mask applies every such rule through the
simple-path branch — one literal get/set or delete at the whole path,
never wildcard expansion — and always succeeds, whatever characters
(including `#`) the path contains. -/
theorem c10_caller_rules_simple_path :
    ∀ (jm : JsonMaskerImpl) (data : Doc) (pas : List (String × String)),
      mask jm data (pas.map (fun pa => mkRule pa.1 pa.2)) =
        Except.ok (pas.foldl (fun d pa => maskSimplePath jm d pa.1 pa.2) data) := by
  intro jm data pas
  induction pas generalizing data with
  | nil => rfl
  | cons pa rest ih =>
    simp only [mkRule] at ih
    simp [mask, mkRule, List.foldl, ih]

/-- Unfolding of `rangeOverArray` when the wildcard prefix is missing. -/
theorem rangeOverArray_none (jm : JsonMaskerImpl) (data : Doc) (rule : Rule)
    (arrPath arrItemPath : String) (hal : arrLen data arrPath = none) :
    rangeOverArray jm data rule arrPath arrItemPath = Except.error "json array not found" := by
  rw [rangeOverArray, hal]

/-- Unfolding of `rangeOverArray` when the wildcard prefix resolves. -/
theorem rangeOverArray_some (jm : JsonMaskerImpl) (data : Doc) (rule : Rule)
    (arrPath arrItemPath : String) (n : Nat) (hal : arrLen data arrPath = some n) :
    rangeOverArray jm data rule arrPath arrItemPath =
      rangeLoop jm rule arrPath arrItemPath (List.range n) data := by
  rw [rangeOverArray, hal]

/-- C5 (amended): when a wildcard rule's prefix does not resolve to an
existing array, `mask` aborts immediately — whatever rules remain, none is
applied and the single error value is returned — but the error is the
fixed message "json array not found", which does not identify the failing
rule's address. -/
theorem c5_missing_array_aborts (jm : JsonMaskerImpl) (data : Doc) (rule : Rule)
    (rest : List Rule) (arrPath arrItemPath : String)
    (hsl : rule.sliceLevel ≠ 0)
    (hsp : splitAtHash rule.Path = some (arrPath, arrItemPath))
    (hal : arrLen data arrPath = none) :
    mask jm data (rule :: rest) = Except.error "json array not found" := by
  rw [mask, if_neg hsl]
  simp only [hsp]
  rw [rangeOverArray_none jm data rule arrPath arrItemPath hal]

/-- C5 witness: a concrete wildcard rule over an empty document aborts
with the fixed error even though another rule follows it. -/
theorem c5_missing_array_aborts_witness :
    mask New (Doc.obj []) [Rule.mk "a.#" "upper" 1, mkRule "x" "upper"] =
      Except.error "json array not found" :=
  c5_missing_array_aborts New (Doc.obj []) (Rule.mk "a.#" "upper" 1) [mkRule "x" "upper"]
    "a.#" "" (by decide) (by decide) (by decide)

/-- Record description used by the C5 counterexample: a slice of structs
whose element field is masked, under wire name `a`. -/
def c5shapeA : Shape :=
  Shape.struct [Fld.mk "A" true [("json", "a")]
    (Shape.slice (Shape.struct [Fld.mk "B" true [("json", "b"), ("mask", "upper")] Shape.basic]))]

/-- Record description used by the C5 counterexample: same layout as
`c5shapeA` under the distinct wire name `c`. -/
def c5shapeC : Shape :=
  Shape.struct [Fld.mk "C" true [("json", "c")]
    (Shape.slice (Shape.struct [Fld.mk "D" true [("json", "d"), ("mask", "upper")] Shape.basic]))]

/-- C5 counterexample: two rule sets whose single rules carry different
addresses fail on the empty document with identical error values, so the
returned error does not identify the failing rule's address. -/
theorem c5_counterexample :
    (ParseStruct New c5shapeA).Rules.map Rule.Path = ["a.#.b"] ∧
    (ParseStruct New c5shapeC).Rules.map Rule.Path = ["c.#.d"] ∧
    Mask New (Doc.obj []) (ParseStruct New c5shapeA) = Except.error "json array not found" ∧
    Mask New (Doc.obj []) (ParseStruct New c5shapeC) = Except.error "json array not found" := by
  refine ⟨?_, ?_, ?_, ?_⟩ <;>
    simp [c5shapeA, c5shapeC, ParseStruct, extractStructRules, extractFieldsRules,
      extractStructFieldRules, extractShapeDispatch, parseFieldTag, tagLookup, joinPath, stripPtr, isSliceKind,
      elemOf, isBasicKind, stripSlices, countHashSegs, Fld.name, Fld.exported, Fld.tags,
      Fld.shape, idxChar, Mask, mask, splitAtHash, idxHashSeg, rangeOverArray, arrLen,
      segsOf, splitSegs, segGet, assocGet, New, NewWithMaskTag, AddFunc, DefaultStructFieldTag]

/-- With an action that is neither the deletion sentinel nor a registered
name, the expansion loop never modifies the document: every outcome is
the unchanged document or an error. -/
theorem rangeLoop_unreg_noop (jm : JsonMaskerImpl) (rule : Rule)
    (hdel : rule.Action ≠ "-") (hfn : fnLookup rule.Action jm.funcs = none) :
    ∀ (N : Nat) (arrItemPath : String), arrItemPath.data.length < N →
    ∀ (arrPath : String) (is : List Nat) (data : Doc),
      rangeLoop jm rule arrPath arrItemPath is data = Except.ok data ∨
      ∃ e, rangeLoop jm rule arrPath arrItemPath is data = Except.error e := by
  intro N
  induction N with
  | zero => intro ip hip; omega
  | succ N ihN =>
    intro ip hip ap is
    induction is with
    | nil => intro d; left; rw [rangeLoop]
    | cons i rest ihis =>
      intro d
      rw [rangeLoop, if_neg hdel]
      cases hsp : splitAtHash ip with
      | none =>
        simp only [hsp, hfn]
        exact ihis d
      | some p =>
        obtain ⟨sub, subItem⟩ := p
        have hlt := splitAtHash_lt ip sub subItem hsp
        simp only [hsp]
        cases hal : arrLen d (String.mk (repHash ap.data (Nat.repr i)) ++ sub) with
        | none =>
          rw [rangeOverArray_none _ _ _ _ _ hal]
          right
          exact ⟨"json array not found", rfl⟩
        | some n =>
          rw [rangeOverArray_some _ _ _ _ _ n hal]
          rcases ihN subItem (by omega) (String.mk (repHash ap.data (Nat.repr i)) ++ sub)
              (List.range n) d with hok | ⟨e, herr⟩
          · rw [hok]
            exact ihis d
          · rw [herr]
            right
            exact ⟨e, rfl⟩

/-- C3 (amended): for a rule set whose actions are neither the deletion
sentinel nor registered names, masking never modifies the document:
whenever `mask` succeeds, the returned document is the input unchanged
(`mask` can still fail with the array-not-found error when a wildcard
prefix is absent, as the separate counterexample shows). -/
theorem c3_unregistered_noop (jm : JsonMaskerImpl) :
    ∀ (rules : List Rule),
      (∀ r ∈ rules, r.Action ≠ "-" ∧ fnLookup r.Action jm.funcs = none) →
      ∀ (data d2 : Doc), mask jm data rules = Except.ok d2 → d2 = data := by
  intro rules
  induction rules with
  | nil =>
    intro _ data d2 hm
    rw [mask] at hm
    cases hm
    rfl
  | cons r rest ih =>
    intro h data d2 hm
    have hr := h r (List.mem_cons_self r rest)
    have hrest : ∀ x ∈ rest, x.Action ≠ "-" ∧ fnLookup x.Action jm.funcs = none :=
      fun x hx => h x (List.mem_cons_of_mem r hx)
    rw [mask] at hm
    by_cases hsl : r.sliceLevel = 0
    · rw [if_pos hsl] at hm
      have hnoop : maskSimplePath jm data r.Path r.Action = data := by
        rw [maskSimplePath, if_neg hr.1, hr.2]
      rw [hnoop] at hm
      exact ih hrest data d2 hm
    · rw [if_neg hsl] at hm
      cases hsp : splitAtHash r.Path with
      | none => rw [hsp] at hm; cases hm
      | some p =>
        obtain ⟨ap, ip⟩ := p
        simp only [hsp] at hm
        cases hal : arrLen data ap with
        | none =>
          rw [rangeOverArray_none _ _ _ _ _ hal] at hm
          cases hm
        | some n =>
          rw [rangeOverArray_some _ _ _ _ _ n hal] at hm
          rcases rangeLoop_unreg_noop jm r hr.1 hr.2 (ip.data.length + 1) ip (by omega)
              ap (List.range n) data with hok | ⟨e, herr⟩
          · simp only [hok] at hm
            exact ih hrest data d2 hm
          · simp only [herr] at hm
            cases hm

/-- C3 witness: a single unregistered-action rule leaves a concrete
document unchanged, and the amended theorem applies to it. -/
theorem c3_unregistered_noop_witness :
    mask New (Doc.obj [("q", Doc.leaf "1")]) [mkRule "q" "nobody"] =
      Except.ok (Doc.obj [("q", Doc.leaf "1")]) ∧
    Doc.obj [("q", Doc.leaf "1")] = Doc.obj [("q", Doc.leaf "1")] :=
  ⟨rfl,
   c3_unregistered_noop New [mkRule "q" "nobody"]
     (by
       intro r hrm
       simp at hrm
       subst hrm
       exact ⟨by decide, rfl⟩)
     (Doc.obj [("q", Doc.leaf "1")]) (Doc.obj [("q", Doc.leaf "1")]) rfl⟩

/-- Record description used by the C3 counterexample: a slice of structs
whose element field carries the unregistered action name `nobody`. -/
def c3shape : Shape :=
  Shape.struct [Fld.mk "A" true [("json", "a")]
    (Shape.slice (Shape.struct [Fld.mk "B" true [("json", "b"), ("mask", "nobody")] Shape.basic]))]

/-- C3 counterexample: a rule set whose only action is the unregistered
name `nobody` does not return the document unchanged on every document —
on the empty document the wildcard prefix is missing and Mask returns an
error instead. -/
theorem c3_counterexample :
    (ParseStruct New c3shape).Rules.map Rule.Action = ["nobody"] ∧
    ("nobody" : String) ≠ "-" ∧
    fnLookup "nobody" New.funcs = none ∧
    Mask New (Doc.obj []) (ParseStruct New c3shape) = Except.error "json array not found" := by
  refine ⟨?_, by decide, rfl, ?_⟩ <;>
    simp [c3shape, ParseStruct, extractStructRules, extractFieldsRules,
      extractStructFieldRules, extractShapeDispatch, parseFieldTag, tagLookup, joinPath, stripPtr, isSliceKind,
      elemOf, isBasicKind, stripSlices, countHashSegs, Fld.name, Fld.exported, Fld.tags,
      Fld.shape, idxChar, Mask, mask, splitAtHash, idxHashSeg, rangeOverArray, arrLen,
      segsOf, splitSegs, segGet, assocGet, New, NewWithMaskTag, AddFunc, DefaultStructFieldTag]

/-- Erasing at an index beyond the end leaves a list unchanged. -/
theorem eraseIdx_len_le {α : Type} :
    ∀ (xs : List α) (i : Nat), xs.length ≤ i → xs.eraseIdx i = xs
  | [], _, _ => rfl
  | x :: tl, 0, h => by simp at h
  | x :: tl, i + 1, h => by
    simp only [List.eraseIdx]
    rw [eraseIdx_len_le tl i (by simpa using h)]

/-- Setting an index to the value it already holds leaves a list
unchanged. -/
theorem set_self_of_get? {α : Type} :
    ∀ (xs : List α) (i : Nat) (v : α), xs.get? i = some v → xs.set i v = xs
  | [], i, v, h => by cases h
  | x :: tl, 0, v, h => by
    cases h
    rfl
  | x :: tl, i + 1, v, h => by
    simp only [List.set]
    rw [set_self_of_get? tl i v (by simpa using h)]

/-- Removing an entry that is not present leaves the field list
unchanged. -/
theorem objDel_of_assocGet_none :
    ∀ (fs : List (String × Doc)) (s : String) (last : Bool) (upd : Doc → Doc),
      assocGet s fs = none → objDel fs s last upd = fs
  | [], _, _, _, _ => rfl
  | (k, v) :: tl, s, last, upd, h => by
    rw [assocGet] at h
    by_cases hk : k = s
    · rw [if_pos hk] at h; cases h
    · rw [if_neg hk] at h
      rw [objDel, if_neg hk, objDel_of_assocGet_none tl s last upd h]

/-- Updating the found entry with a function fixing its value leaves the
field list unchanged. -/
theorem objDel_of_assocGet_some :
    ∀ (fs : List (String × Doc)) (s : String) (upd : Doc → Doc) (v : Doc),
      assocGet s fs = some v → upd v = v → objDel fs s false upd = fs
  | [], _, _, _, h, _ => by cases h
  | (k, w) :: tl, s, upd, v, h, hupd => by
    rw [assocGet] at h
    by_cases hk : k = s
    · rw [if_pos hk] at h
      cases h
      rw [objDel, if_pos hk]
      simp [hupd]
    · rw [if_neg hk] at h
      rw [objDel, if_neg hk, objDel_of_assocGet_some tl s upd v h hupd]

/-- Deleting a literal address that does not exist in the document leaves
the document unchanged (the delete collaborator's no-op). -/
theorem segDel_of_segGet_none :
    ∀ (segs : List String) (d : Doc), segGet d segs = none → segDel d segs = d := by
  intro segs
  induction segs with
  | nil =>
    intro d h
    rw [segGet] at h
    cases h
  | cons s rest ih =>
    intro d h
    cases d with
    | leaf raw => rw [segDel]
    | obj fs =>
      rw [segGet] at h
      rw [segDel]
      cases hag : assocGet s fs with
      | none => rw [objDel_of_assocGet_none fs s _ _ hag]
      | some v =>
        simp only [hag] at h
        cases rest with
        | nil =>
          rw [segGet] at h
          cases h
        | cons r2 rs =>
          have hv : segDel v (r2 :: rs) = v := ih v h
          simp only [List.isEmpty]
          rw [objDel_of_assocGet_some fs s _ v hag hv]
    | arr xs =>
      rw [segGet] at h
      rw [segDel]
      cases hdt : decToNat? s with
      | none => simp only [hdt]
      | some i =>
        simp only [hdt] at h
        cases hget : xs.get? i with
        | none =>
          simp only [hget] at h
          simp only [hdt]
          cases rest with
          | nil =>
            have hlen : xs.length ≤ i := List.get?_eq_none.mp hget
            rw [eraseIdx_len_le xs i hlen]
          | cons r2 rs => simp only [hget]
        | some v =>
          simp only [hget] at h
          cases rest with
          | nil =>
            rw [segGet] at h
            cases h
          | cons r2 rs =>
            simp only [hdt, hget]
            rw [ih v h, set_self_of_get? xs i v hget]

/-- C6 (amended): for a zero-wildcard-depth rule whose literal address
does not exist in the document: with the deletion sentinel, mask leaves
the document unchanged and does not fail; with a registered function
name, mask does not fail either, but instead of a no-op it applies the
function to the empty raw value and writes the result at the literal
address, thereby creating the absent field. -/
theorem c6_missing_literal_address (jm : JsonMaskerImpl) (data : Doc) (path : String)
    (hmiss : segGet data (segsOf path) = none) :
    mask jm data [mkRule path "-"] = Except.ok data ∧
    (∀ (action : String) (f : String → String),
      action ≠ "-" →
      fnLookup action jm.funcs = some f →
      mask jm data [mkRule path action] = Except.ok (segSet data (segsOf path) (f ""))) := by
  constructor
  · simp [mask, mkRule, maskSimplePath, segDel_of_segGet_none (segsOf path) data hmiss]
  · intro action f hne hf
    simp [mask, mkRule, maskSimplePath, hne, hf, hmiss, rawOf]

/-- C6 witness: on `\x7b"a":1\x7d`, deleting the absent `b` is a no-op and
masking the absent `b` with the registered `null` function writes
`Null ""` at `b`. -/
theorem c6_missing_literal_address_witness :
    mask New (Doc.obj [("a", Doc.leaf "1")]) [mkRule "b" "-"] =
      Except.ok (Doc.obj [("a", Doc.leaf "1")]) ∧
    mask New (Doc.obj [("a", Doc.leaf "1")]) [mkRule "b" "null"] =
      Except.ok (segSet (Doc.obj [("a", Doc.leaf "1")]) (segsOf "b") (Null "")) :=
  ⟨(c6_missing_literal_address New (Doc.obj [("a", Doc.leaf "1")]) "b" rfl).1,
   (c6_missing_literal_address New (Doc.obj [("a", Doc.leaf "1")]) "b" rfl).2
     "null" Null (by decide) rfl⟩

/-- C6 counterexample: masking the absent literal address `b` with the
registered `null` function does not leave the document unchanged — the
field is created and set to `null`. -/
theorem c6_counterexample :
    fnLookup "null" New.funcs = some Null ∧
    Mask New (Doc.obj [("a", Doc.leaf "1")]) { Rules := [mkRule "b" "null"] } =
      Except.ok (Doc.obj [("a", Doc.leaf "1"), ("b", Doc.leaf "null")]) ∧
    Doc.obj [("a", Doc.leaf "1"), ("b", Doc.leaf "null")] ≠ Doc.obj [("a", Doc.leaf "1")] := by
  exact ⟨rfl, rfl, by simp⟩

/-- Every error produced inside the expansion loop is the fixed
array-not-found message. -/
theorem rangeLoop_error_msg (jm : JsonMaskerImpl) (rule : Rule) :
    ∀ (N : Nat) (arrItemPath : String), arrItemPath.data.length < N →
    ∀ (arrPath : String) (is : List Nat) (data : Doc) (e : String),
      rangeLoop jm rule arrPath arrItemPath is data = Except.error e →
      e = "json array not found" := by
  intro N
  induction N with
  | zero => intro ip hip; omega
  | succ N ihN =>
    intro ip hip ap is
    induction is with
    | nil =>
      intro d e h
      rw [rangeLoop] at h
      cases h
    | cons i rest ihis =>
      intro d e h
      rw [rangeLoop] at h
      by_cases hdel : rule.Action = "-"
      · rw [if_pos hdel] at h
        exact ihis _ e h
      · rw [if_neg hdel] at h
        split at h
        next hsp =>
          cases hfn : fnLookup rule.Action jm.funcs with
          | none =>
            simp only [hfn] at h
            exact ihis _ e h
          | some f =>
            simp only [hfn] at h
            exact ihis _ e h
        next sub subItem hsp =>
          have hlt := splitAtHash_lt ip sub subItem hsp
          cases hal : arrLen d (String.mk (repHash ap.data (Nat.repr i)) ++ sub) with
          | none =>
            rw [rangeOverArray_none _ _ _ _ _ hal] at h
            cases h
            rfl
          | some n =>
            rw [rangeOverArray_some _ _ _ _ _ n hal] at h
            cases hloop : rangeLoop jm rule (String.mk (repHash ap.data (Nat.repr i)) ++ sub)
                subItem (List.range n) d with
            | error e2 =>
              have he2 := ihN subItem (by omega) _ (List.range n) d e2 hloop
              simp only [hloop] at h
              cases h
              exact he2
            | ok d2 =>
              simp only [hloop] at h
              exact ihis d2 e h

/-- Every error produced by wildcard expansion is the fixed
array-not-found message. -/
theorem rangeOverArray_error_msg (jm : JsonMaskerImpl) (data : Doc) (rule : Rule)
    (arrPath arrItemPath : String) (e : String)
    (h : rangeOverArray jm data rule arrPath arrItemPath = Except.error e) :
    e = "json array not found" := by
  cases hal : arrLen data arrPath with
  | none =>
    rw [rangeOverArray_none _ _ _ _ _ hal] at h
    cases h
    rfl
  | some n =>
    rw [rangeOverArray_some _ _ _ _ _ n hal] at h
    exact rangeLoop_error_msg jm rule (arrItemPath.data.length + 1) arrItemPath (by omega)
      arrPath (List.range n) data e h

/-- For rules whose wildcard depth matches the wildcard count of their
path, the malformed-address branch of `mask` is unreachable. -/
theorem mask_no_invalid_path (jm : JsonMaskerImpl) :
    ∀ (rules : List Rule), (∀ r ∈ rules, r.sliceLevel = countHashSegs r.Path.data) →
    ∀ data, mask jm data rules ≠ Except.error "invalid json array path" := by
  intro rules
  induction rules with
  | nil =>
    intro _ data h
    rw [mask] at h
    cases h
  | cons r rest ih =>
    intro hcount data h
    have hr := hcount r (List.mem_cons_self r rest)
    have hrest : ∀ x ∈ rest, x.sliceLevel = countHashSegs x.Path.data :=
      fun x hx => hcount x (List.mem_cons_of_mem r hx)
    rw [mask] at h
    by_cases hsl : r.sliceLevel = 0
    · rw [if_pos hsl] at h
      exact ih hrest _ h
    · rw [if_neg hsl] at h
      have hcnt : 0 < countHashSegs r.Path.data := by omega
      obtain ⟨i, hi⟩ := countHashSegs_pos_idx _ hcnt
      have hsp : splitAtHash r.Path =
          some (String.mk (r.Path.data.take (i + 2)), String.mk (r.Path.data.drop (i + 2))) := by
        rw [splitAtHash, hi]
      simp only [hsp] at h
      cases hro : rangeOverArray jm data r (String.mk (r.Path.data.take (i + 2)))
          (String.mk (r.Path.data.drop (i + 2))) with
      | error e =>
        simp only [hro] at h
        cases h
        exact absurd (rangeOverArray_error_msg jm data r _ _ _ hro) (by decide)
      | ok d2 =>
        simp only [hro] at h
        exact ih hrest d2 h

/-- C7: each rule produced by ParseStruct has its wildcard-depth field
equal to the number of `".#"` wildcard segments in its path, and
consequently on such rule sets the "invalid json array path" branch of
mask is unreachable for every document. -/
theorem c7_sliceLevel_consistent (jm : JsonMaskerImpl) (src : Shape) :
    (∀ r ∈ (ParseStruct jm src).Rules, r.sliceLevel = countHashSegs r.Path.data) ∧
    (∀ data : Doc, mask jm data (ParseStruct jm src).Rules ≠
      Except.error "invalid json array path") := by
  have h1 : ∀ r ∈ (ParseStruct jm src).Rules, r.sliceLevel = countHashSegs r.Path.data := by
    intro r hr
    simp only [ParseStruct, List.mem_map] at hr
    obtain ⟨orig, _, rfl⟩ := hr
    rfl
  exact ⟨h1, fun data => mask_no_invalid_path jm _ h1 data⟩

/-- Record description used by the C7 witness: a slice of structs with a
masked scalar element field. -/
def c7shape : Shape :=
  Shape.struct [Fld.mk "Items" true [("json", "items")]
    (Shape.slice (Shape.struct
      [Fld.mk "Cur" true [("json", "currency"), ("mask", "upper")] Shape.basic]))]

/-- C7 witness: the concrete rule derived from `c7shape` is in the parsed
rule set and its wildcard depth equals its path's wildcard count. -/
theorem c7_sliceLevel_consistent_witness :
    Rule.mk "items.#.currency" "upper" 1 ∈ (ParseStruct New c7shape).Rules ∧
    (Rule.mk "items.#.currency" "upper" 1).sliceLevel =
      countHashSegs (Rule.mk "items.#.currency" "upper" 1).Path.data :=
  ⟨by
    simp [c7shape, ParseStruct, extractStructRules, extractFieldsRules,
      extractStructFieldRules, extractShapeDispatch, parseFieldTag, tagLookup, joinPath, stripPtr, isSliceKind,
      elemOf, isBasicKind, stripSlices, countHashSegs, Fld.name, Fld.exported, Fld.tags,
      Fld.shape, idxChar, New, NewWithMaskTag, AddFunc, DefaultStructFieldTag],
   (c7_sliceLevel_consistent New c7shape).1 (Rule.mk "items.#.currency" "upper" 1)
     (by
       simp [c7shape, ParseStruct, extractStructRules, extractFieldsRules,
         extractStructFieldRules, extractShapeDispatch, parseFieldTag, tagLookup, joinPath, stripPtr, isSliceKind,
         elemOf, isBasicKind, stripSlices, countHashSegs, Fld.name, Fld.exported, Fld.tags,
         Fld.shape, idxChar, New, NewWithMaskTag, AddFunc, DefaultStructFieldTag])⟩

/-!
Address uniqueness (C4).  Each rule emitted by the introspector ends, up
to trailing wildcard segments, with the wire name of the field that
emitted it; when all wire names of a record tree are distinct and free of
the path separator characters, the emitted addresses are pairwise
distinct.
-/

/-- Equal character data makes equal strings. -/
theorem strData_inj {a b : String} (h : a.data = b.data) : a = b := by
  cases a
  cases b
  cases h
  rfl

/-- Character data of an appended string. -/
theorem strAppend_data (a b : String) : (a ++ b).data = a.data ++ b.data := by
  cases a
  cases b
  rfl

/-- A wire name suitable for unique addressing: no separator character
and not the wildcard marker. -/
def goodName (s : String) : Prop := ('.' ∉ s.data) ∧ s ≠ "#"

mutual
/-- All resolved wire names occurring in a shape's record tree. -/
def wireNamesShape (jm : JsonMaskerImpl) : Shape → List String
  | Shape.basic => []
  | Shape.mapT => []
  | Shape.ptr e => wireNamesShape jm e
  | Shape.slice e => wireNamesShape jm e
  | Shape.arrT e => wireNamesShape jm e
  | Shape.struct fs => wireNamesFlds jm fs
termination_by s => sizeOf s
decreasing_by all_goals simp_wf

/-- All resolved wire names of a field list's subtrees. -/
def wireNamesFlds (jm : JsonMaskerImpl) : List Fld → List String
  | [] => []
  | f :: rest => wireNamesFld jm f ++ wireNamesFlds jm rest
termination_by fs => sizeOf fs
decreasing_by all_goals (simp_wf; try omega)

/-- The resolved wire name of a field followed by the names of its
subtree. -/
def wireNamesFld (jm : JsonMaskerImpl) (f : Fld) : List String :=
  (parseFieldTag jm f).1 :: wireNamesShape jm f.shape
termination_by sizeOf f
decreasing_by all_goals simp_wf <;> exact sizeOf_shape_lt f
end

/-- Pointer unwrapping preserves the wire names of a shape. -/
theorem wireNamesShape_stripPtr (jm : JsonMaskerImpl) :
    ∀ s : Shape, wireNamesShape jm (stripPtr s) = wireNamesShape jm s := by
  intro s
  cases s with
  | ptr e =>
    have ih := wireNamesShape_stripPtr jm e
    rw [stripPtr, ih, wireNamesShape]
  | basic => simp [stripPtr]
  | mapT => simp [stripPtr]
  | slice e => simp [stripPtr]
  | arrT e => simp [stripPtr]
  | struct fs => simp [stripPtr]
termination_by s => sizeOf s
decreasing_by simp

/-- Probing the element of a slice or array preserves wire names. -/
theorem wireNamesShape_elemOf (jm : JsonMaskerImpl) (s : Shape) :
    wireNamesShape jm (elemOf s) = wireNamesShape jm s := by
  cases s <;> simp [elemOf, wireNamesShape]

/-- Stripping nested slice layers preserves wire names. -/
theorem wireNamesShape_stripSlices (jm : JsonMaskerImpl) :
    ∀ (s : Shape) (attr : String),
      wireNamesShape jm (stripSlices s attr).1 = wireNamesShape jm s := by
  intro s
  cases s with
  | slice e =>
    intro attr
    have ih := wireNamesShape_stripSlices jm e (attr ++ ".#")
    rw [stripSlices, ih, wireNamesShape]
  | basic => intro attr; simp [stripSlices]
  | mapT => intro attr; simp [stripSlices]
  | ptr e => intro attr; simp [stripSlices]
  | arrT e => intro attr; simp [stripSlices]
  | struct fs => intro attr; simp [stripSlices]
termination_by s => sizeOf s
decreasing_by simp

/-- The segment split of any character list is non-empty. -/
theorem splitSegs_ne_nil : ∀ cs : List Char, splitSegs cs ≠ []
  | [] => by rw [splitSegs]; exact List.cons_ne_nil _ _
  | c :: rest => by
    rw [splitSegs]
    by_cases hc : c = '.'
    · rw [if_pos hc]; exact List.cons_ne_nil _ _
    · rw [if_neg hc]
      cases hsp : splitSegs rest with
      | nil => exact List.cons_ne_nil _ _
      | cons s ss => exact List.cons_ne_nil _ _

/-- A separator-free character list is a single segment. -/
theorem splitSegs_no_dot : ∀ cs : List Char, '.' ∉ cs → splitSegs cs = [cs]
  | [], _ => rfl
  | c :: rest, h => by
    have hc : c ≠ '.' := fun hceq => h (hceq ▸ List.mem_cons_self c rest)
    have hrest : '.' ∉ rest := fun hm => h (List.mem_cons_of_mem c hm)
    rw [splitSegs, if_neg hc, splitSegs_no_dot rest hrest]

/-- Splitting distributes over a separator: the segments of
`p ++ "." ++ q` are the segments of `p` followed by those of `q`. -/
theorem splitSegs_append : ∀ (p q : List Char),
    splitSegs (p ++ '.' :: q) = splitSegs p ++ splitSegs q
  | [], q => by simp [splitSegs]
  | c :: p, q => by
    rw [List.cons_append, splitSegs]
    by_cases hc : c = '.'
    · rw [if_pos hc, splitSegs_append p q, splitSegs, if_pos hc]
      rfl
    · rw [if_neg hc, splitSegs_append p q]
      cases hsp : splitSegs p with
      | nil => exact absurd hsp (splitSegs_ne_nil p)
      | cons s ss =>
        rw [List.cons_append, splitSegs, if_neg hc, hsp]
        rfl

/-- Drops every wildcard segment from a segment list. -/
def dropHashSegs : List (List Char) → List (List Char)
  | [] => []
  | seg :: rest =>
    if seg = ['#'] then dropHashSegs rest else seg :: dropHashSegs rest

/-- Dropping wildcard segments distributes over append. -/
theorem dropHashSegs_append : ∀ (a b : List (List Char)),
    dropHashSegs (a ++ b) = dropHashSegs a ++ dropHashSegs b
  | [], b => rfl
  | seg :: a, b => by
    rw [List.cons_append, dropHashSegs, dropHashSegs]
    by_cases hs : seg = ['#']
    · rw [if_pos hs, if_pos hs, dropHashSegs_append a b]
    · rw [if_neg hs, if_neg hs, dropHashSegs_append a b]
      rfl

/-- A list with a last element is non-empty. -/
theorem getLast?_some_ne_nil {α : Type} {l : List α} {x : α} (h : l.getLast? = some x) :
    l ≠ [] := by
  intro hnil
  rw [hnil] at h
  cases h

/-- The last non-wildcard segment of an address. -/
def lastNonHashSeg (cs : List Char) : Option (List Char) :=
  (dropHashSegs (splitSegs cs)).getLast?

/-- A good name is its own last non-wildcard segment. -/
theorem lastNonHashSeg_good (x : String) (h : goodName x) :
    lastNonHashSeg x.data = some x.data := by
  rw [lastNonHashSeg, splitSegs_no_dot x.data h.1, dropHashSegs]
  have hx : x.data ≠ ['#'] := fun hd => h.2 (strData_inj (b := "#") hd)
  rw [if_neg hx, dropHashSegs]
  rfl

/-- Prefixing an address through a separator does not change its last
non-wildcard segment. -/
theorem lastNonHashSeg_append_seg (p q : List Char) (w : List Char)
    (h : lastNonHashSeg q = some w) :
    lastNonHashSeg (p ++ '.' :: q) = some w := by
  rw [lastNonHashSeg, splitSegs_append p q, dropHashSegs_append]
  rw [lastNonHashSeg] at h
  rw [List.getLast?_append_of_ne_nil _ (getLast?_some_ne_nil h), h]

/-- Appending a wildcard segment does not change the last non-wildcard
segment. -/
theorem lastNonHashSeg_append_hash (cs : List Char) :
    lastNonHashSeg (cs ++ '.' :: '#' :: []) = lastNonHashSeg cs := by
  rw [lastNonHashSeg, splitSegs_append cs ['#'], dropHashSegs_append]
  have h1 : splitSegs ['#'] = [['#']] := rfl
  rw [h1, dropHashSegs, if_pos rfl, dropHashSegs, List.append_nil, lastNonHashSeg]

/-- The last non-wildcard segment of a joined path is the joined name's
own last non-wildcard segment. -/
theorem lastNonHashSeg_joinPath (p x : String) (w : List Char)
    (h : lastNonHashSeg x.data = some w) :
    lastNonHashSeg (joinPath p x).data = some w := by
  rw [joinPath]
  by_cases hp : p = ""
  · rw [if_pos hp]
    exact h
  · rw [if_neg hp]
    have hd : (p ++ "." ++ x).data = p.data ++ '.' :: x.data := by
      rw [strAppend_data, strAppend_data]
      simp
    rw [hd]
    exact lastNonHashSeg_append_seg p.data x.data w h

/-- Addresses of the given rules are pairwise distinct. -/
def pathsDistinct (rs : List Rule) : Prop :=
  rs.Pairwise (fun r1 r2 => r1.Path ≠ r2.Path)

/-- The given wire names are pairwise distinct and good. -/
def namesOk (nms : List String) : Prop :=
  nms.Nodup ∧ ∀ nm ∈ nms, goodName nm

/-- Each rule's address ends, up to wildcard segments, with one of the
given wire names. -/
def tracksNames (rs : List Rule) (nms : List String) : Prop :=
  ∀ r ∈ rs, ∃ nm ∈ nms, lastNonHashSeg r.Path.data = some nm.data

/-- Widening the name set preserves tracking. -/
theorem tracksNames_mono {rs : List Rule} {nms nms' : List String}
    (hsub : ∀ nm ∈ nms, nm ∈ nms') (h : tracksNames rs nms) : tracksNames rs nms' :=
  fun r hr =>
    match h r hr with
    | ⟨nm, hnm, hl⟩ => ⟨nm, hsub nm hnm, hl⟩

/-- Rules tracking disjoint name sets have distinct addresses. -/
theorem tracks_disjoint_cross {rs1 rs2 : List Rule} {nms1 nms2 : List String}
    (h1 : tracksNames rs1 nms1) (h2 : tracksNames rs2 nms2)
    (hd : nms1.Disjoint nms2) :
    ∀ r1 ∈ rs1, ∀ r2 ∈ rs2, r1.Path ≠ r2.Path := by
  intro r1 hr1 r2 hr2 heq
  obtain ⟨nm1, hnm1, hl1⟩ := h1 r1 hr1
  obtain ⟨nm2, hnm2, hl2⟩ := h2 r2 hr2
  rw [heq, hl2] at hl1
  have hnm12 : nm1 = nm2 := strData_inj (Option.some.inj hl1).symm
  exact hd hnm1 (hnm12 ▸ hnm2)

/-- Tracking is compatible with appending rule and name lists. -/
theorem tracksNames_append {rs1 rs2 : List Rule} {nms1 nms2 : List String}
    (h1 : tracksNames rs1 nms1) (h2 : tracksNames rs2 nms2) :
    tracksNames (rs1 ++ rs2) (nms1 ++ nms2) := by
  intro r hr
  rcases List.mem_append.mp hr with h | h
  · obtain ⟨nm, hnm, hl⟩ := h1 r h
    exact ⟨nm, List.mem_append_left _ hnm, hl⟩
  · obtain ⟨nm, hnm, hl⟩ := h2 r h
    exact ⟨nm, List.mem_append_right _ hnm, hl⟩

/-- Appending rule lists that track disjoint name sets keeps addresses
pairwise distinct. -/
theorem pathsDistinct_append {rs1 rs2 : List Rule} {nms1 nms2 : List String}
    (t1 : tracksNames rs1 nms1) (t2 : tracksNames rs2 nms2) (hd : nms1.Disjoint nms2)
    (d1 : pathsDistinct rs1) (d2 : pathsDistinct rs2) : pathsDistinct (rs1 ++ rs2) := by
  rw [pathsDistinct, List.pairwise_append]
  exact ⟨d1, d2, tracks_disjoint_cross t1 t2 hd⟩

/-- Shapes have positive size. -/
theorem shape_sizeOf_pos (s : Shape) : 0 < sizeOf s := by
  cases s <;> (simp; try omega)

/-- Field lists have positive size. -/
theorem flds_sizeOf_pos (fs : List Fld) : 0 < sizeOf fs := by
  cases fs <;> (simp; try omega)

/-- Fields have positive size. -/
theorem fld_sizeOf_pos (f : Fld) : 0 < sizeOf f := by
  cases f
  simp

/-- The probed field shape is no larger than the field's own shape. -/
theorem sizeOf_probe_le (f : Fld) :
    sizeOf (if isSliceKind (stripPtr f.shape) = true then elemOf (stripPtr f.shape)
            else stripPtr f.shape) ≤ sizeOf f.shape := by
  split
  · exact le_trans (sizeOf_elemOf_le _) (sizeOf_stripPtr_le _)
  · exact sizeOf_stripPtr_le _

/-- The probed field shape has the wire names of the field's own shape. -/
theorem wireNamesShape_probe (jm : JsonMaskerImpl) (f : Fld) :
    wireNamesShape jm (if isSliceKind (stripPtr f.shape) = true then elemOf (stripPtr f.shape)
                       else stripPtr f.shape) = wireNamesShape jm f.shape := by
  split
  · rw [wireNamesShape_elemOf, wireNamesShape_stripPtr]
  · rw [wireNamesShape_stripPtr]

/-- The attribute produced for a field in the non-recursive default
branch ends with the field's wire name. -/
theorem lastNonHashSeg_attr (parent pft1 : String) (c : Bool) (hg : goodName pft1) :
    lastNonHashSeg (joinPath parent
      (if c = true then joinPath parent (pft1 ++ ".#") else pft1)).data = some pft1.data := by
  have hbase := lastNonHashSeg_good pft1 hg
  split
  · refine lastNonHashSeg_joinPath _ _ _ (lastNonHashSeg_joinPath _ _ _ ?_)
    have hd : (pft1 ++ ".#").data = pft1.data ++ '.' :: '#' :: [] := by
      rw [strAppend_data]
    rw [hd, lastNonHashSeg_append_hash]
    exact hbase
  · exact lastNonHashSeg_joinPath _ _ _ hbase

/-- Main introspector invariant: over a record tree whose wire names are
pairwise distinct and good, every emitted rule's address ends with a wire
name of the tree (up to wildcard segments), and the addresses are
pairwise distinct. -/
theorem extract_inv (jm : JsonMaskerImpl) : ∀ k : Nat,
    (∀ s : Shape, sizeOf s ≤ k → ∀ parent : String,
      namesOk (wireNamesShape jm s) →
      tracksNames (extractStructRules jm s parent) (wireNamesShape jm s) ∧
      pathsDistinct (extractStructRules jm s parent)) ∧
    (∀ fs : List Fld, sizeOf fs ≤ k → ∀ parent : String,
      namesOk (wireNamesFlds jm fs) →
      tracksNames (extractFieldsRules jm fs parent) (wireNamesFlds jm fs) ∧
      pathsDistinct (extractFieldsRules jm fs parent)) ∧
    (∀ f : Fld, sizeOf f ≤ k → ∀ parent : String,
      namesOk (wireNamesFld jm f) →
      tracksNames (extractStructFieldRules jm f parent) (wireNamesFld jm f) ∧
      pathsDistinct (extractStructFieldRules jm f parent)) := by
  intro k
  induction k with
  | zero =>
    refine ⟨?_, ?_, ?_⟩
    · intro s hs
      exact absurd hs (by have := shape_sizeOf_pos s; omega)
    · intro fs hfs
      exact absurd hfs (by have := flds_sizeOf_pos fs; omega)
    · intro f hf
      exact absurd hf (by have := fld_sizeOf_pos f; omega)
  | succ k ihk =>
    obtain ⟨ihS, ihF, ihf⟩ := ihk
    refine ⟨?_, ?_, ?_⟩
    · intro s hs parent hnames
      cases s with
      | basic =>
        refine ⟨?_, ?_⟩ <;> simp [extractStructRules, tracksNames, pathsDistinct]
      | mapT =>
        refine ⟨?_, ?_⟩ <;> simp [extractStructRules, tracksNames, pathsDistinct]
      | slice e =>
        refine ⟨?_, ?_⟩ <;> simp [extractStructRules, tracksNames, pathsDistinct]
      | arrT e =>
        refine ⟨?_, ?_⟩ <;> simp [extractStructRules, tracksNames, pathsDistinct]
      | ptr e =>
        have hse : sizeOf e ≤ k := by
          simp at hs
          omega
        have key := ihS e hse parent (by simpa [wireNamesShape] using hnames)
        simpa [extractStructRules, wireNamesShape] using key
      | struct fs =>
        have hsf : sizeOf fs ≤ k := by
          simp at hs
          omega
        have key := ihF fs hsf parent (by simpa [wireNamesShape] using hnames)
        simpa [extractStructRules, wireNamesShape] using key
    · intro fs hfs parent hnames
      cases fs with
      | nil =>
        refine ⟨?_, ?_⟩ <;> simp [extractFieldsRules, tracksNames, pathsDistinct]
      | cons f rest =>
        have hf : sizeOf f ≤ k := by
          simp at hfs
          omega
        have hrest : sizeOf rest ≤ k := by
          simp at hfs
          omega
        rw [wireNamesFlds] at hnames
        have hnodup := hnames.1
        rw [List.nodup_append] at hnodup
        have hnames1 : namesOk (wireNamesFld jm f) :=
          ⟨hnodup.1, fun nm hnm => hnames.2 nm (List.mem_append_left _ hnm)⟩
        have hnames2 : namesOk (wireNamesFlds jm rest) :=
          ⟨hnodup.2.1, fun nm hnm => hnames.2 nm (List.mem_append_right _ hnm)⟩
        have H2 := ihF rest hrest parent hnames2
        have H1 : tracksNames (if f.exported = true then extractStructFieldRules jm f parent
              else []) (wireNamesFld jm f) ∧
            pathsDistinct (if f.exported = true then extractStructFieldRules jm f parent
              else []) := by
          split
          · exact ihf f hf parent hnames1
          · refine ⟨?_, ?_⟩ <;> simp [tracksNames, pathsDistinct]
        rw [extractFieldsRules, wireNamesFlds]
        exact ⟨tracksNames_append H1.1 H2.1,
          pathsDistinct_append H1.1 H2.1 hnodup.2.2 H1.2 H2.2⟩
    · intro f hf parent hnames
      rw [wireNamesFld] at hnames
      have hgood1 : goodName (parseFieldTag jm f).1 :=
        hnames.2 _ (List.mem_cons_self _ _)
      have hnodup := List.nodup_cons.mp hnames.1
      have hnamesS : namesOk (wireNamesShape jm f.shape) :=
        ⟨hnodup.2, fun nm hnm => hnames.2 nm (List.mem_cons_of_mem _ hnm)⟩
      have hmem1 : (parseFieldTag jm f).1 ∈ wireNamesFld jm f := by
        rw [wireNamesFld]
        exact List.mem_cons_self _ _
      have hmemS : ∀ nm ∈ wireNamesShape jm f.shape, nm ∈ wireNamesFld jm f := by
        intro nm hnm
        rw [wireNamesFld]
        exact List.mem_cons_of_mem _ hnm
      simp only [extractStructFieldRules]
      by_cases hdel : (parseFieldTag jm f).2 = "-"
      · simp only [if_pos hdel]
        constructor
        · intro r hr
          simp at hr
          subst hr
          exact ⟨(parseFieldTag jm f).1, hmem1,
            lastNonHashSeg_joinPath _ _ _ (lastNonHashSeg_good _ hgood1)⟩
        · simp [pathsDistinct]
      · simp only [if_neg hdel]
        by_cases hslice : isSliceKind (stripPtr f.shape) = true
        · simp only [if_pos hslice]
          by_cases hbasic : isBasicKind (elemOf (stripPtr f.shape)) = true
          · simp only [if_pos hbasic]
            by_cases hempty : (parseFieldTag jm f).2 = ""
            · simp only [if_pos hempty]
              refine ⟨?_, ?_⟩ <;> simp [tracksNames, pathsDistinct]
            · simp only [if_neg hempty]
              constructor
              · intro r hr
                simp at hr
                subst hr
                exact ⟨(parseFieldTag jm f).1, hmem1,
                  lastNonHashSeg_joinPath _ _ _ (lastNonHashSeg_good _ hgood1)⟩
              · simp [pathsDistinct]
          · simp only [if_neg hbasic]
            cases hse : elemOf (stripPtr f.shape) with
            | basic =>
              rw [hse] at hbasic
              exact absurd rfl hbasic
            | struct fs2 =>
              simp only [extractShapeDispatch]
              have hsz : sizeOf (Shape.struct fs2) ≤ k := by
                have h0 := congrArg sizeOf hse
                have h1 := sizeOf_elemOf_le (stripPtr f.shape)
                have h2 := sizeOf_stripPtr_le f.shape
                have h3 := sizeOf_shape_lt f
                omega
              have hwn : wireNamesShape jm (Shape.struct fs2) = wireNamesShape jm f.shape := by
                rw [← hse, wireNamesShape_elemOf, wireNamesShape_stripPtr]
              have key := ihS (Shape.struct fs2) hsz
                (joinPath parent ((parseFieldTag jm f).1 ++ ".#"))
                (by rw [hwn]; exact hnamesS)
              exact ⟨tracksNames_mono
                (fun nm hnm => hmemS nm (by rw [← hwn]; exact hnm)) key.1, key.2⟩
            | slice e =>
              simp only [extractShapeDispatch]
              have h0 := congrArg sizeOf hse
              have h1 := sizeOf_elemOf_le (stripPtr f.shape)
              have h2 := sizeOf_stripPtr_le f.shape
              have h3 := sizeOf_shape_lt f
              have hssl := sizeOf_stripSlices_le (Shape.slice e)
                (joinPath parent ((parseFieldTag jm f).1 ++ ".#"))
              have hsz : sizeOf (stripSlices (Shape.slice e)
                  (joinPath parent ((parseFieldTag jm f).1 ++ ".#"))).1 ≤ k := by
                omega
              have hwn : wireNamesShape jm (stripSlices (Shape.slice e)
                  (joinPath parent ((parseFieldTag jm f).1 ++ ".#"))).1 =
                  wireNamesShape jm f.shape := by
                rw [wireNamesShape_stripSlices, ← hse, wireNamesShape_elemOf,
                  wireNamesShape_stripPtr]
              have key := ihS _ hsz (stripSlices (Shape.slice e)
                  (joinPath parent ((parseFieldTag jm f).1 ++ ".#"))).2
                (by rw [hwn]; exact hnamesS)
              exact ⟨tracksNames_mono
                (fun nm hnm => hmemS nm (by rw [← hwn]; exact hnm)) key.1, key.2⟩
            | mapT =>
              simp only [extractShapeDispatch]
              constructor
              · intro r hr
                simp at hr
                subst hr
                refine ⟨(parseFieldTag jm f).1, hmem1, ?_⟩
                refine lastNonHashSeg_joinPath _ _ _ (lastNonHashSeg_joinPath _ _ _ ?_)
                have hd : ((parseFieldTag jm f).1 ++ ".#").data =
                    (parseFieldTag jm f).1.data ++ '.' :: '#' :: [] := by
                  rw [strAppend_data]
                rw [hd, lastNonHashSeg_append_hash]
                exact lastNonHashSeg_good _ hgood1
              · simp [pathsDistinct]
            | ptr e =>
              simp only [extractShapeDispatch]
              constructor
              · intro r hr
                simp at hr
                subst hr
                refine ⟨(parseFieldTag jm f).1, hmem1, ?_⟩
                refine lastNonHashSeg_joinPath _ _ _ (lastNonHashSeg_joinPath _ _ _ ?_)
                have hd : ((parseFieldTag jm f).1 ++ ".#").data =
                    (parseFieldTag jm f).1.data ++ '.' :: '#' :: [] := by
                  rw [strAppend_data]
                rw [hd, lastNonHashSeg_append_hash]
                exact lastNonHashSeg_good _ hgood1
              · simp [pathsDistinct]
            | arrT e =>
              simp only [extractShapeDispatch]
              constructor
              · intro r hr
                simp at hr
                subst hr
                refine ⟨(parseFieldTag jm f).1, hmem1, ?_⟩
                refine lastNonHashSeg_joinPath _ _ _ (lastNonHashSeg_joinPath _ _ _ ?_)
                have hd : ((parseFieldTag jm f).1 ++ ".#").data =
                    (parseFieldTag jm f).1.data ++ '.' :: '#' :: [] := by
                  rw [strAppend_data]
                rw [hd, lastNonHashSeg_append_hash]
                exact lastNonHashSeg_good _ hgood1
              · simp [pathsDistinct]
        · simp only [if_neg hslice]
          by_cases hbasic : isBasicKind (stripPtr f.shape) = true
          · simp only [if_pos hbasic]
            by_cases hempty : (parseFieldTag jm f).2 = ""
            · simp only [if_pos hempty]
              refine ⟨?_, ?_⟩ <;> simp [tracksNames, pathsDistinct]
            · simp only [if_neg hempty]
              constructor
              · intro r hr
                simp at hr
                subst hr
                exact ⟨(parseFieldTag jm f).1, hmem1,
                  lastNonHashSeg_joinPath _ _ _ (lastNonHashSeg_good _ hgood1)⟩
              · simp [pathsDistinct]
          · simp only [if_neg hbasic]
            cases hse : stripPtr f.shape with
            | basic =>
              rw [hse] at hbasic
              exact absurd rfl hbasic
            | slice e =>
              rw [hse] at hslice
              exact absurd rfl hslice
            | arrT e =>
              rw [hse] at hslice
              exact absurd rfl hslice
            | struct fs2 =>
              simp only [extractShapeDispatch]
              have hsz : sizeOf (Shape.struct fs2) ≤ k := by
                have h0 := congrArg sizeOf hse
                have h2 := sizeOf_stripPtr_le f.shape
                have h3 := sizeOf_shape_lt f
                omega
              have hwn : wireNamesShape jm (Shape.struct fs2) = wireNamesShape jm f.shape := by
                rw [← hse, wireNamesShape_stripPtr]
              have key := ihS (Shape.struct fs2) hsz (parseFieldTag jm f).1
                (by rw [hwn]; exact hnamesS)
              exact ⟨tracksNames_mono
                (fun nm hnm => hmemS nm (by rw [← hwn]; exact hnm)) key.1, key.2⟩
            | mapT =>
              simp only [extractShapeDispatch]
              constructor
              · intro r hr
                simp at hr
                subst hr
                exact ⟨(parseFieldTag jm f).1, hmem1,
                  lastNonHashSeg_joinPath _ _ _ (lastNonHashSeg_good _ hgood1)⟩
              · simp [pathsDistinct]
            | ptr e =>
              simp only [extractShapeDispatch]
              constructor
              · intro r hr
                simp at hr
                subst hr
                exact ⟨(parseFieldTag jm f).1, hmem1,
                  lastNonHashSeg_joinPath _ _ _ (lastNonHashSeg_good _ hgood1)⟩
              · simp [pathsDistinct]

/-- A record description with two exported fields that share the json tag
"x": the introspector emits two rules with the identical address. -/
def c4shape : Shape :=
  Shape.struct
    [Fld.mk "A" true [("json", "x"), ("mask", "upper")] Shape.basic,
     Fld.mk "B" true [("json", "x"), ("mask", "lower")] Shape.basic]

/-- A record description with distinct, separator-free json tags. -/
def c4okShape : Shape :=
  Shape.struct
    [Fld.mk "A" true [("json", "a"), ("mask", "upper")] Shape.basic,
     Fld.mk "B" true [("json", "b"), ("mask", "lower")] Shape.basic]

/-- C4 counterexample: as stated the claim is false — for the record
description c4shape, whose two exported fields both carry the json tag
"x", ParseStruct produces two rules with the identical Path "x". -/
theorem c4_counterexample :
    (ParseStruct New c4shape).Rules.map Rule.Path = ["x", "x"] ∧
    ¬ ((ParseStruct New c4shape).Rules.map Rule.Path).Nodup := by
  have hmap : (ParseStruct New c4shape).Rules.map Rule.Path = ["x", "x"] := by
    simp [ParseStruct, c4shape, extractStructRules, extractFieldsRules,
      extractStructFieldRules, extractShapeDispatch, parseFieldTag, tagLookup,
      idxChar, stripPtr, isSliceKind, isBasicKind, elemOf, joinPath, New,
      NewWithMaskTag, DefaultStructFieldTag, AddFunc, countHashSegs,
      Fld.name, Fld.exported, Fld.tags, Fld.shape]
  refine ⟨hmap, ?_⟩
  rw [hmap]
  decide

/-- C4 (amended): if the record description's resolved wire names are
pairwise distinct, contain no path separator and none of them is the
wildcard token, then no two rules in the RuleSet produced by ParseStruct
share an identical static Address (Path) string. -/
theorem c4_unique_addresses (jm : JsonMaskerImpl) (src : Shape)
    (h : namesOk (wireNamesShape jm src)) :
    ((ParseStruct jm src).Rules.map Rule.Path).Nodup := by
  have key := (extract_inv jm (sizeOf src)).1 src (Nat.le_refl _) "" h
  have hd := key.2
  rw [ParseStruct]
  simp only [List.map_map]
  have hmc : ((extractStructRules jm src "").map
      (Rule.Path ∘ fun r => { r with sliceLevel := countHashSegs r.Path.data })) =
      (extractStructRules jm src "").map Rule.Path :=
    List.map_congr_left (fun r _ => rfl)
  rw [hmc]
  exact List.pairwise_map.mpr hd

/-- C4 witness: the record description c4okShape has distinct good wire
names "a" and "b", and the amended theorem applies to it. -/
theorem c4_unique_addresses_witness :
    namesOk (wireNamesShape New c4okShape) ∧
    ((ParseStruct New c4okShape).Rules.map Rule.Path).Nodup := by
  have hn : wireNamesShape New c4okShape = ["a", "b"] := by
    simp [c4okShape, wireNamesShape, wireNamesFlds, wireNamesFld, parseFieldTag,
      tagLookup, idxChar, New, NewWithMaskTag, DefaultStructFieldTag, AddFunc,
      Fld.name, Fld.exported, Fld.tags, Fld.shape]
  have h : namesOk (wireNamesShape New c4okShape) := by
    rw [hn]
    refine ⟨by decide, ?_⟩
    intro nm hnm
    simp at hnm
    rcases hnm with h1 | h1 <;> subst h1 <;> exact ⟨by decide, by decide⟩
  exact ⟨h, c4_unique_addresses New c4okShape h⟩

end Jsonmask
